import Mathlib

/-!
Verification of `src/mvs/torch_modules.cc` (PatchMatchNet depth-estimation
modules for COLMAP). The tensor operations the claims depend on are embedded
as pure functions over `ℚ` (per-pixel / per-sample views of the batched
tensors); bilinear `grid_sample` with `align_corners=false` and its two
padding modes are modelled exactly.
-/

namespace TorchModules

/-- Clamp an integer pixel index into `[0, n-1]` (border padding). -/
def clampIdx (n : ℕ) (i : ℤ) : ℕ := (min (max i 0) ((n : ℤ) - 1)).toNat

/-- Border-padded read of an image `f : x → y → ℚ` of size `w × h`. -/
def borderPix (w h : ℕ) (f : ℕ → ℕ → ℚ) (ix iy : ℤ) : ℚ :=
  f (clampIdx w ix) (clampIdx h iy)

/-- Zero-padded read of an image `f : x → y → ℚ` of size `w × h`. -/
def zeroPix (w h : ℕ) (f : ℕ → ℕ → ℚ) (ix iy : ℤ) : ℚ :=
  if 0 ≤ ix ∧ ix < (w : ℤ) ∧ 0 ≤ iy ∧ iy < (h : ℤ) then f ix.toNat iy.toNat else 0

/-- Map a normalized coordinate in `[-1,1]` to pixel space, as torch does for
`align_corners=false`: `((c + 1) * size - 1) / 2`. -/
def unnormalize (size : ℕ) (c : ℚ) : ℚ := ((c + 1) * (size : ℚ) - 1) / 2

/-- Bilinear interpolation of a padded pixel read at a real pixel coordinate. -/
def bilin2D (pix : ℤ → ℤ → ℚ) (x y : ℚ) : ℚ :=
  (1 - Int.fract x) * (1 - Int.fract y) * pix ⌊x⌋ ⌊y⌋ +
    Int.fract x * (1 - Int.fract y) * pix (⌊x⌋ + 1) ⌊y⌋ +
    (1 - Int.fract x) * Int.fract y * pix ⌊x⌋ (⌊y⌋ + 1) +
    Int.fract x * Int.fract y * pix (⌊x⌋ + 1) (⌊y⌋ + 1)

/-- One-channel `grid_sample`, bilinear, zero padding, `align_corners=false`
(the `kGridSampleZeros` options of `torch_modules.cc`), at one normalized grid
coordinate. -/
def gridSampleZeros (w h : ℕ) (f : ℕ → ℕ → ℚ) (xn yn : ℚ) : ℚ :=
  bilin2D (zeroPix w h f) (unnormalize w xn) (unnormalize h yn)

/-- One-channel `grid_sample`, bilinear, border padding, `align_corners=false`
(the `kGridSampleBorder` options of `torch_modules.cc`), at one normalized grid
coordinate. -/
def gridSampleBorder (w h : ℕ) (f : ℕ → ℕ → ℚ) (xn yn : ℚ) : ℚ :=
  bilin2D (borderPix w h f) (unnormalize w xn) (unnormalize h yn)

/-! ### EvaluationImpl::DifferentiableWarping (lines 391-436)

The 4×4 matrices are embedded as plain `ℕ → ℕ → ℚ` tables. `warpXYZ` is the
homogeneous transform `rot · (x, y, 1) * depth + trans` of lines 414-420 for
one pixel `(x, y)` and one depth hypothesis, where `rot`/`trans` are the
3×3 / 3×1 blocks of the relative projection matrix. `maskBehind` is the mask
and `torch::stack` of lines 422-426, reproduced exactly: all three stacked
components read `xyz.select(1, 0)` (the x component) in the source. -/

/-- Product of two 4×4 matrices given as rational tables
(`torch::matmul(proj, torch::inverse(ref_proj))` of line 405, with the inverse
factor supplied as an explicit argument). -/
def matMul4 (a b : ℕ → ℕ → ℚ) : ℕ → ℕ → ℚ := fun i j =>
  a i 0 * b 0 j + a i 1 * b 1 j + a i 2 * b 2 j + a i 3 * b 3 j

/-- The 4×4 identity matrix. -/
def id4 : ℕ → ℕ → ℚ := fun i j => if i = j then 1 else 0

/-- The relative transform `proj · inverse(ref_proj)` of line 405, with the
inverse of the reference projection passed explicitly. -/
def relTransform (proj refProjInv : ℕ → ℕ → ℚ) : ℕ → ℕ → ℚ := matMul4 proj refProjInv

/-- Lines 414-420: apply the 3×3 rotation block of `pmtx` to the homogeneous
pixel `(x, y, 1)`, scale by the depth hypothesis `d`, add the translation
block: the camera-space point `(x', y', z')`. -/
def warpXYZ (pmtx : ℕ → ℕ → ℚ) (d x y : ℚ) : ℚ × ℚ × ℚ :=
  ((pmtx 0 0 * x + pmtx 0 1 * y + pmtx 0 2) * d + pmtx 0 3,
   (pmtx 1 0 * x + pmtx 1 1 * y + pmtx 1 2) * d + pmtx 1 3,
   (pmtx 2 0 * x + pmtx 2 1 * y + pmtx 2 2) * d + pmtx 2 3)

/-- Lines 422-426 verbatim: the behind-camera mask `z' ≤ 1e-3` followed by the
`torch::stack` that rebuilds the volume. In the source all three stacked
channels read `xyz.select(1, 0)`, so an unmasked point becomes
`(x', x', x')`; a masked point becomes `(width, height, 1)` because
`masked_fill` overwrites the masked entries with the fill value. -/
def maskBehind (w h : ℕ) (v : ℚ × ℚ × ℚ) : ℚ × ℚ × ℚ :=
  if v.2.2 ≤ 1/1000 then ((w : ℚ), (h : ℚ), 1) else (v.1, v.1, v.1)

/-- Line 428: the perspective divide `xyz.narrow(1, 0, 2) / xyz.select(1, 2)`
applied after the mask step. -/
def warpProjXY (w h : ℕ) (v : ℚ × ℚ × ℚ) : ℚ × ℚ :=
  ((maskBehind w h v).1 / (maskBehind w h v).2.2,
   (maskBehind w h v).2.1 / (maskBehind w h v).2.2)

/-- Lines 429-430: normalize a pixel coordinate to `[-1, 1]`:
`c / ((size - 1) / 2) - 1`. -/
def normCoord (size : ℕ) (c : ℚ) : ℚ := c / (((size : ℚ) - 1) / 2) - 1

/-- The normalized sampling coordinate the code hands to `grid_sample` for one
pixel `(x, y)` and one depth hypothesis `d` (lines 405-431). -/
def warpGrid (pmtx : ℕ → ℕ → ℚ) (w h : ℕ) (d x y : ℚ) : ℚ × ℚ :=
  (normCoord w (warpProjXY w h (warpXYZ pmtx d x y)).1,
   normCoord h (warpProjXY w h (warpXYZ pmtx d x y)).2)

/-- Line 434: the warped neighbor-feature value, i.e. `grid_sample` with zero
padding of the neighbor feature at the computed coordinate. -/
def diffWarpSample (pmtx : ℕ → ℕ → ℚ) (w h : ℕ) (f : ℕ → ℕ → ℚ) (d x y : ℚ) : ℚ :=
  gridSampleZeros w h f (warpGrid pmtx w h d x y).1 (warpGrid pmtx w h d x y).2

/-- Modelled from the spec: the projected 2-D coordinates `(x'/z', y'/z')` the
specification says the warp samples at. -/
def specProjXY (v : ℚ × ℚ × ℚ) : ℚ × ℚ := (v.1 / v.2.2, v.2.1 / v.2.2)

/-- A concrete neighbor projection: identity rotation with translation
`(5, 0, 0)`; the reference projection is the identity, so `id4` is
`inverse(ref_proj)`. -/
def projEx : ℕ → ℕ → ℚ := fun i j => if i = j then 1 else if i = 0 ∧ j = 3 then 5 else 0

/-- The relative transform `projEx · inverse(id4)` for the concrete example
(`id4` is its own inverse). -/
def relEx : ℕ → ℕ → ℚ := relTransform projEx id4

lemma zeroPix_of_ge (w h : ℕ) (f : ℕ → ℕ → ℚ) (ix iy : ℤ) (hx : (w : ℤ) ≤ ix) :
    zeroPix w h f ix iy = 0 := by
  unfold zeroPix
  rw [if_neg]
  rintro ⟨-, h2, -⟩
  omega

lemma normCoord_self_gt_one (n : ℕ) (hn : 2 ≤ n) : 1 < normCoord n (n : ℚ) := by
  have hc : (2 : ℚ) ≤ (n : ℚ) := by exact_mod_cast hn
  have hc1 : (0 : ℚ) < (n : ℚ) - 1 := by linarith
  unfold normCoord
  rw [lt_sub_iff_add_lt, div_div_eq_mul_div, lt_div_iff₀ hc1]
  linarith

lemma unnormalize_normCoord_self_ge (n : ℕ) (hn : 2 ≤ n) :
    (n : ℚ) ≤ unnormalize n (normCoord n (n : ℚ)) := by
  have hc : (2 : ℚ) ≤ (n : ℚ) := by exact_mod_cast hn
  have hc1 : (0 : ℚ) < (n : ℚ) - 1 := by linarith
  unfold normCoord unnormalize
  have hx : ((n : ℚ) / (((n : ℚ) - 1) / 2) - 1 + 1) = (n : ℚ) * 2 / ((n : ℚ) - 1) := by
    rw [div_div_eq_mul_div]
    ring
  rw [hx, le_div_iff₀ (by norm_num : (0 : ℚ) < 2), div_mul_eq_mul_div,
    le_sub_iff_add_le, le_div_iff₀ hc1]
  have hring : (n : ℚ) * 2 * (n : ℚ) - ((n : ℚ) * 2 + 1) * ((n : ℚ) - 1) = (n : ℚ) + 1 := by
    ring
  linarith

/-- C1: the claim says `DifferentiableWarping` samples the neighbor feature at
`(x'/z', y'/z')` for every hypothesis whose projected depth exceeds the
epsilon. The code does not: lines 423-425 stack `xyz.select(1, 0)` three
times, so an unmasked point `(x', y', z')` is rebuilt as `(x', x', x')` and
both sampling coordinates become `x'/x' = 1`. Concretely, with relative
transform `projEx · inverse(id4)` (identity rotation, translation `(5,0,0)`),
pixel `(0,0)`, depth hypothesis `2`, and a 10×10 feature map, the point is
`(5, 0, 2)` (in front of the camera), the code samples at pixel coordinates
`(1, 1)`, but the claimed coordinates are `(5/2, 0)`. -/
theorem warp_samples_wrong_coordinates :
    warpXYZ relEx 2 0 0 = (5, 0, 2) ∧
    1/1000 < (warpXYZ relEx 2 0 0).2.2 ∧
    warpProjXY 10 10 (warpXYZ relEx 2 0 0) = (1, 1) ∧
    specProjXY (warpXYZ relEx 2 0 0) = (5/2, 0) ∧
    warpProjXY 10 10 (warpXYZ relEx 2 0 0) ≠ specProjXY (warpXYZ relEx 2 0 0) := by
  have hxyz : warpXYZ relEx 2 0 0 = (5, 0, 2) := by
    norm_num [warpXYZ, relEx, relTransform, matMul4, projEx, id4]
  have hmask : maskBehind 10 10 ((5 : ℚ), (0 : ℚ), (2 : ℚ)) = (5, 5, 5) := by
    norm_num [maskBehind]
  have hcode : warpProjXY 10 10 (warpXYZ relEx 2 0 0) = (1, 1) := by
    rw [hxyz]
    unfold warpProjXY
    rw [hmask]
    norm_num
  have hspec : specProjXY (warpXYZ relEx 2 0 0) = (5/2, 0) := by
    rw [hxyz]
    norm_num [specProjXY]
  refine ⟨hxyz, ?_, hcode, hspec, ?_⟩
  · rw [hxyz]
    norm_num
  · rw [hcode, hspec]
    norm_num [Prod.ext_iff]

/-- C4: any point whose projected camera-space depth `z'` is at most `1e-3`
(in particular one behind the camera) is remapped to normalized coordinates
strictly greater than 1 in both axes (strictly outside `[-1, 1]`), and the
zero-padded bilinear grid sample of the neighbor feature there is exactly the
padding value `0`; the computation is total, so no error is raised. -/
theorem warp_behind_camera_samples_zero (pmtx : ℕ → ℕ → ℚ) (w h : ℕ) (f : ℕ → ℕ → ℚ)
    (d x y : ℚ) (hw : 2 ≤ w) (hh : 2 ≤ h)
    (hz : (warpXYZ pmtx d x y).2.2 ≤ 1/1000) :
    1 < (warpGrid pmtx w h d x y).1 ∧ 1 < (warpGrid pmtx w h d x y).2 ∧
    diffWarpSample pmtx w h f d x y = 0 := by
  have hm : maskBehind w h (warpXYZ pmtx d x y) = ((w : ℚ), (h : ℚ), 1) := by
    unfold maskBehind
    rw [if_pos hz]
  have hp : warpProjXY w h (warpXYZ pmtx d x y) = ((w : ℚ), (h : ℚ)) := by
    unfold warpProjXY
    rw [hm]
    norm_num
  have hg : warpGrid pmtx w h d x y = (normCoord w (w : ℚ), normCoord h (h : ℚ)) := by
    unfold warpGrid
    rw [hp]
  have hfx : (w : ℤ) ≤ ⌊unnormalize w (normCoord w (w : ℚ))⌋ := by
    rw [Int.le_floor]
    exact_mod_cast unnormalize_normCoord_self_ge w hw
  refine ⟨?_, ?_, ?_⟩
  · rw [hg]
    exact normCoord_self_gt_one w hw
  · rw [hg]
    exact normCoord_self_gt_one h hh
  · unfold diffWarpSample
    rw [hg]
    show gridSampleZeros w h f (normCoord w (w : ℚ)) (normCoord h (h : ℚ)) = 0
    unfold gridSampleZeros bilin2D
    rw [zeroPix_of_ge w h f _ _ hfx, zeroPix_of_ge w h f _ _ hfx,
      zeroPix_of_ge w h f _ _ (by omega), zeroPix_of_ge w h f _ _ (by omega)]
    ring

/-- Witness for C4 at a concrete input: the zero transform with translation
`(0, 0, -1)` puts every point at camera-space depth `-1` (the spec's synthetic
behind-camera point); on a 2×2 feature map that is constantly `7`, the warped
sample is exactly the zero-padding value. -/
theorem warp_behind_camera_samples_zero_witness :
    2 ≤ 2 ∧
    (warpXYZ (fun i j => if i = 2 ∧ j = 3 then -1 else 0) 1 0 0).2.2 ≤ 1/1000 ∧
    (1 < (warpGrid (fun i j => if i = 2 ∧ j = 3 then -1 else 0) 2 2 1 0 0).1 ∧
      1 < (warpGrid (fun i j => if i = 2 ∧ j = 3 then -1 else 0) 2 2 1 0 0).2 ∧
      diffWarpSample (fun i j => if i = 2 ∧ j = 3 then -1 else 0) 2 2 (fun _ _ => 7) 1 0 0 = 0) :=
  ⟨le_refl 2, by norm_num [warpXYZ],
    warp_behind_camera_samples_zero _ 2 2 _ 1 0 0 (le_refl 2) (le_refl 2)
      (by norm_num [warpXYZ])⟩

/-! ### InitDepthImpl::forward, cold-start branch (lines 296-303)

With `depth_init` undefined the code builds `rand + arange(0, 48)` and returns
`1 / (((1/depth_min - 1/depth_max) / 48) * depth + 1/depth_max)`. Per sample
index `i` the pre-noise value uses `rand = 0`; `initDepthCold` keeps the noise
term explicit. -/

/-- One inverse-depth bin width: `(1/depth_min - 1/depth_max) / 48`. -/
def invDepthStep (dmin dmax : ℚ) : ℚ := (1/dmin - 1/dmax) / 48

/-- Cold-start hypothesis `i` with per-sample noise `noise i` (the `rand`
draw in `[0,1)`): `1 / (step * (noise + i) + 1/depth_max)`. -/
def initDepthCold (dmin dmax : ℚ) (noise : ℕ → ℚ) (i : ℕ) : ℚ :=
  1 / (invDepthStep dmin dmax * (noise i + (i : ℚ)) + 1/dmax)

/-- Cold-start hypothesis `i` before the uniform noise (`rand = 0`). -/
def initDepthNoNoise (dmin dmax : ℚ) (i : ℕ) : ℚ :=
  1 / (invDepthStep dmin dmax * (i : ℚ) + 1/dmax)

/-- The 48 pre-noise cold-start hypotheses of one pixel, by sample index. -/
def initDepthColdList (dmin dmax : ℚ) : List ℚ :=
  (List.range 48).map (initDepthNoNoise dmin dmax)

/-- C3 counterexample: with `depth_min = 1`, `depth_max = 2`, the pre-noise
hypothesis at index 0 equals `depth_max` exactly, so it does not lie strictly
inside the open interval `(depth_min, depth_max)` as the claim states. -/
theorem init_depth_sample_zero_hits_depth_max :
    initDepthNoNoise 1 2 0 = 2 ∧ ¬ initDepthNoNoise 1 2 0 < 2 := by
  norm_num [initDepthNoNoise, invDepthStep]

/-- C3 amended: the cold-start branch produces exactly 48 hypotheses per
pixel which, before the per-sample uniform noise, lie in the half-open
interval `(depth_min, depth_max]` (index 0 equals `depth_max` exactly), are
strictly ordered by hypothesis index in inverse-depth space, and are linearly
spaced there with spacing one inverse-depth bin `(1/depth_min − 1/depth_max)/48`. -/
theorem init_depth_cold_start_samples (dmin dmax : ℚ) (h0 : 0 < dmin) (h1 : dmin < dmax) :
    (initDepthColdList dmin dmax).length = 48 ∧
    (∀ i : ℕ, i < 48 →
      dmin < initDepthNoNoise dmin dmax i ∧ initDepthNoNoise dmin dmax i ≤ dmax) ∧
    initDepthNoNoise dmin dmax 0 = dmax ∧
    (∀ i j : ℕ, i < j → j < 48 →
      1 / initDepthNoNoise dmin dmax i < 1 / initDepthNoNoise dmin dmax j) ∧
    (∀ i : ℕ,
      1 / initDepthNoNoise dmin dmax (i+1) - 1 / initDepthNoNoise dmin dmax i =
        invDepthStep dmin dmax) := by
  have hdmax : 0 < dmax := lt_trans h0 h1
  have ha : 0 < 1/dmax := one_div_pos.mpr hdmax
  have hb : 1/dmax < 1/dmin := one_div_lt_one_div_of_lt h0 h1
  have hs : 0 < invDepthStep dmin dmax := by
    unfold invDepthStep
    exact div_pos (by linarith) (by norm_num)
  have hmn : ∀ i : ℕ, 0 ≤ invDepthStep dmin dmax * (i : ℚ) := fun i =>
    mul_nonneg (le_of_lt hs) (Nat.cast_nonneg i)
  have hg : ∀ i : ℕ, 0 < invDepthStep dmin dmax * (i : ℚ) + 1/dmax := fun i => by
    have := hmn i
    linarith
  have hval : ∀ i : ℕ, 1 / initDepthNoNoise dmin dmax i =
      invDepthStep dmin dmax * (i : ℚ) + 1/dmax := fun i => by
    unfold initDepthNoNoise
    rw [one_div_one_div]
  refine ⟨by simp [initDepthColdList], fun i hi => ⟨?_, ?_⟩, ?_, fun i j hij hj => ?_, fun i => ?_⟩
  · have hlt : invDepthStep dmin dmax * (i : ℚ) + 1/dmax < 1/dmin := by
      have hi47 : (i : ℚ) ≤ 47 := by exact_mod_cast Nat.lt_succ_iff.mp hi
      have hmono : invDepthStep dmin dmax * (i : ℚ) ≤ invDepthStep dmin dmax * 47 :=
        mul_le_mul_of_nonneg_left hi47 (le_of_lt hs)
      have h48 : invDepthStep dmin dmax * 48 = 1/dmin - 1/dmax := by
        unfold invDepthStep
        exact div_mul_cancel₀ _ (by norm_num)
      have h47 : invDepthStep dmin dmax * 47 =
          invDepthStep dmin dmax * 48 - invDepthStep dmin dmax := by
        ring
      linarith
    have := one_div_lt_one_div_of_lt (hg i) hlt
    rw [one_div_one_div] at this
    unfold initDepthNoNoise
    exact this
  · have hge : 1/dmax ≤ invDepthStep dmin dmax * (i : ℚ) + 1/dmax := by
      have := hmn i
      linarith
    have := one_div_le_one_div_of_le ha hge
    rw [one_div_one_div] at this
    unfold initDepthNoNoise
    exact this
  · unfold initDepthNoNoise
    rw [Nat.cast_zero, mul_zero, zero_add, one_div_one_div]
  · rw [hval i, hval j]
    have hij2 : (i : ℚ) < (j : ℚ) := by exact_mod_cast hij
    have := mul_lt_mul_of_pos_left hij2 hs
    linarith
  · rw [hval (i+1), hval i]
    push_cast
    ring

/-- Witness for C3 amended, at `depth_min = 1`, `depth_max = 2`. -/
theorem init_depth_cold_start_samples_witness :
    (0 : ℚ) < 1 ∧ (1 : ℚ) < 2 ∧
    ((initDepthColdList 1 2).length = 48 ∧
      (∀ i : ℕ, i < 48 → 1 < initDepthNoNoise 1 2 i ∧ initDepthNoNoise 1 2 i ≤ 2) ∧
      initDepthNoNoise 1 2 0 = 2 ∧
      (∀ i j : ℕ, i < j → j < 48 →
        1 / initDepthNoNoise 1 2 i < 1 / initDepthNoNoise 1 2 j) ∧
      (∀ i : ℕ, 1 / initDepthNoNoise 1 2 (i+1) - 1 / initDepthNoNoise 1 2 i =
        invDepthStep 1 2)) :=
  ⟨zero_lt_one, one_lt_two, init_depth_cold_start_samples 1 2 zero_lt_one one_lt_two⟩

/-! ### PropagationImpl::forward (lines 319-334)

Per pixel `(x, y)`: extract the middle hypothesis plane
`depth.select(1, num_depth / 2)`, sample it at each of the `k = grid.size(1) /
height` neighbor grid coordinates with border padding, concatenate with the
existing hypotheses, and sort ascending. The depth volume is embedded per
pixel as a list of hypotheses; `grid n x y` is the normalized coordinate the
`n`-th neighbor row of the grid holds for pixel `(x, y)`. -/

/-- The middle hypothesis plane `depth.select(1, num_depth / 2)` as an image. -/
def middleSlice (dep : ℕ) (depthVol : ℕ → ℕ → List ℚ) : ℕ → ℕ → ℚ :=
  fun x y => (depthVol x y).getD (dep / 2) 0

/-- The `k` propagated candidates of pixel `(x, y)`: border-padded grid
samples of the middle hypothesis plane at the neighbor coordinates. -/
def propSamples (dep k w h : ℕ) (depthVol : ℕ → ℕ → List ℚ)
    (grid : ℕ → ℕ → ℕ → ℚ × ℚ) (x y : ℕ) : List ℚ :=
  (List.range k).map fun n =>
    gridSampleBorder w h (middleSlice dep depthVol) (grid n x y).1 (grid n x y).2

/-- `PropagationImpl::forward` at pixel `(x, y)`: concatenate the existing
hypotheses with the propagated candidates and sort ascending
(`torch::sort(torch::cat({depth, prop_depth}, 1), 1)`). -/
def propagationForward (dep k w h : ℕ) (depthVol : ℕ → ℕ → List ℚ)
    (grid : ℕ → ℕ → ℕ → ℚ × ℚ) (x y : ℕ) : List ℚ :=
  List.insertionSort (· ≤ ·) (depthVol x y ++ propSamples dep k w h depthVol grid x y)

/-- C5: for a depth volume with `d` samples per pixel and a grid encoding `k`
neighbors, propagation returns per pixel a permutation of the existing
hypotheses plus the `k` border-padded grid samples of the middle
(`d / 2`-indexed) hypothesis plane, with exactly `d + k` samples, and the
sample axis is non-decreasing (sorted ascending). -/
theorem propagation_counts_and_sorts (dep k w h : ℕ) (depthVol : ℕ → ℕ → List ℚ)
    (grid : ℕ → ℕ → ℕ → ℚ × ℚ) (x y : ℕ) (hlen : (depthVol x y).length = dep) :
    (propSamples dep k w h depthVol grid x y).length = k ∧
    (propagationForward dep k w h depthVol grid x y).Perm
      (depthVol x y ++ propSamples dep k w h depthVol grid x y) ∧
    (propagationForward dep k w h depthVol grid x y).length = dep + k ∧
    List.Sorted (· ≤ ·) (propagationForward dep k w h depthVol grid x y) := by
  have hk : (propSamples dep k w h depthVol grid x y).length = k := by
    unfold propSamples
    simp
  refine ⟨hk, List.perm_insertionSort _ _, ?_, List.sorted_insertionSort _ _⟩
  rw [propagationForward, List.length_insertionSort, List.length_append, hlen, hk]

/-- Witness for C5 at a concrete input: a 2-hypothesis volume and one
neighbor whose grid coordinate is the center of a 2×2 image. -/
theorem propagation_counts_and_sorts_witness :
    ((fun _ _ => [(2 : ℚ), 1]) 0 0 : List ℚ).length = 2 ∧
    ((propSamples 2 1 2 2 (fun _ _ => [(2 : ℚ), 1]) (fun _ _ _ => (0, 0)) 0 0).length = 1 ∧
      (propagationForward 2 1 2 2 (fun _ _ => [(2 : ℚ), 1]) (fun _ _ _ => (0, 0)) 0 0).Perm
        ((fun _ _ => [(2 : ℚ), 1]) 0 0 ++
          propSamples 2 1 2 2 (fun _ _ => [(2 : ℚ), 1]) (fun _ _ _ => (0, 0)) 0 0) ∧
      (propagationForward 2 1 2 2 (fun _ _ => [(2 : ℚ), 1]) (fun _ _ _ => (0, 0)) 0 0).length
        = 2 + 1 ∧
      List.Sorted (· ≤ ·)
        (propagationForward 2 1 2 2 (fun _ _ => [(2 : ℚ), 1]) (fun _ _ _ => (0, 0)) 0 0)) :=
  ⟨rfl, propagation_counts_and_sorts 2 1 2 2 _ _ 0 0 rfl⟩

/-- C6 counterexample: the sorted output is not strictly increasing in
general, because sorting does not remove duplicates. With the constant
2-hypothesis volume `[1, 1]` and one neighbor, the propagated candidate
equals `1` as well, so the output `[1, 1, 1]` has equal samples at the same
pixel. -/
theorem propagation_output_not_strictly_increasing :
    propagationForward 2 1 1 1 (fun _ _ => [1, 1]) (fun _ _ _ => (0, 0)) 0 0 = [1, 1, 1] ∧
    ¬ List.Sorted (· < ·)
      (propagationForward 2 1 1 1 (fun _ _ => [1, 1]) (fun _ _ _ => (0, 0)) 0 0) := by
  have hs : gridSampleBorder 1 1 (middleSlice 2 (fun _ _ => [1, 1])) 0 0 = 1 := by
    norm_num [gridSampleBorder, bilin2D, borderPix, middleSlice, clampIdx, unnormalize,
      Int.fract]
  have hp : propSamples 2 1 1 1 (fun _ _ => [1, 1]) (fun _ _ _ => (0, 0)) 0 0 = [1] := by
    unfold propSamples
    simp [hs]
  have hlist : propagationForward 2 1 1 1 (fun _ _ => [1, 1]) (fun _ _ _ => (0, 0)) 0 0
      = [1, 1, 1] := by
    unfold propagationForward
    rw [hp]
    norm_num [List.orderedInsert]
  refine ⟨hlist, ?_⟩
  rw [hlist]
  intro hsort
  exact absurd (List.rel_of_sorted_cons hsort 1 (List.mem_cons_self 1 [1]))
    (lt_irrefl 1)

/-- C6 amended: the hypotheses at every pixel are non-decreasing (sorted
ascending, ties allowed) along the sample axis after sorting; they need not
be strictly increasing. -/
theorem propagation_output_nondecreasing (dep k w h : ℕ) (depthVol : ℕ → ℕ → List ℚ)
    (grid : ℕ → ℕ → ℕ → ℚ × ℚ) (x y : ℕ) :
    List.Sorted (· ≤ ·) (propagationForward dep k w h depthVol grid x y) :=
  List.sorted_insertionSort _ _

/-! ### ReadValues and PatchMatchNetModuleImpl::load (lines 752-784)

The archive is an association list from names to stored tensors (a tensor is
abstracted as `ℚ`; only name resolution matters here). `param_dict` is the
alternate-naming table. For each expected parameter `key` with initialized
value `current`, the code tries `archive.try_read(param_dict.at(key))` when
the table contains `key`, then falls back to `archive.try_read(key)`; on
double failure it keeps `current` and records a warning. -/

/-- The attempted read through the alternate-naming table: `some v` iff
`param_dict` contains `key` and the archive contains the alternate name. -/
def altRead (archive : List (String × ℚ)) (paramDict : List (String × String))
    (key : String) : Option ℚ :=
  (paramDict.lookup key).bind fun alt => archive.lookup alt

/-- One iteration of the `ReadValues` loop for expected name `key` with
initialized value `current`: returns the resulting value and whether a
warning was emitted (the alternate read, then the direct read, then the
warn-and-keep fallback). Loading never fails: the function is total. -/
def readValue (archive : List (String × ℚ)) (paramDict : List (String × String))
    (key : String) (current : ℚ) : ℚ × Bool :=
  ((altRead archive paramDict key).orElse fun _ => archive.lookup key).elim
    (current, true) fun v => (v, false)

/-- The full `ReadValues` pass over the expected parameters: new values plus
the warned names. -/
def readValues (archive : List (String × ℚ)) (paramDict : List (String × String))
    (params : List (String × ℚ)) : List (String × ℚ) × List String :=
  (params.map fun p => (p.1, (readValue archive paramDict p.1 p.2).1),
   (params.filter fun p => (readValue archive paramDict p.1 p.2).2).map fun p => p.1)

/-- C7: for every expected name, loading first resolves through the
alternate-naming table, then falls back to the expected name, and on double
failure keeps the initialized value with only a warning — it never fails. -/
theorem load_resolves_alternate_then_direct (archive : List (String × ℚ))
    (paramDict : List (String × String)) (key : String) (current : ℚ) :
    (∀ v, altRead archive paramDict key = some v →
      readValue archive paramDict key current = (v, false)) ∧
    (altRead archive paramDict key = none → ∀ v, archive.lookup key = some v →
      readValue archive paramDict key current = (v, false)) ∧
    (altRead archive paramDict key = none → archive.lookup key = none →
      readValue archive paramDict key current = (current, true)) := by
  refine ⟨fun v hv => ?_, fun ha v hv => ?_, fun ha hd => ?_⟩
  · show ((altRead archive paramDict key).orElse fun _ => archive.lookup key).elim
      (current, true) (fun v => (v, false)) = (v, false)
    rw [hv]
    rfl
  · show ((altRead archive paramDict key).orElse fun _ => archive.lookup key).elim
      (current, true) (fun v => (v, false)) = (v, false)
    rw [ha, hv]
    rfl
  · show ((altRead archive paramDict key).orElse fun _ => archive.lookup key).elim
      (current, true) (fun v => (v, false)) = (current, true)
    rw [ha, hd]
    rfl

/-- Witness for C7: an archive holding the value `5` under the alternate
name `"a"` for the expected name `"k"` resolves through the table. -/
theorem load_resolves_alternate_then_direct_witness :
    altRead [("a", (5 : ℚ))] [("k", "a")] "k" = some 5 ∧
    readValue [("a", (5 : ℚ))] [("k", "a")] "k" 0 = (5, false) :=
  ⟨rfl, (load_resolves_alternate_then_direct [("a", (5 : ℚ))] [("k", "a")] "k" 0).1 5 rfl⟩

/-! ### PatchMatchModuleImpl::CalcOffsets (lines 546-598)

The propagation offset table per supported neighbor count (unsupported counts
and 0 leave the table empty), and the evaluation offset table. The
17-neighbor evaluation branch indexes `prop_offset_orig[i]` for
`i = 0, …, 7`; reading past the end of the `std::vector` is undefined
behaviour, modelled by returning `none` when the table has fewer than 8
entries. -/

/-- The 3×3 ring minus center at dilation `d` (the 8-neighbor table). -/
def ring8 (d : ℤ) : List (ℤ × ℤ) :=
  [(-d, -d), (-d, 0), (-d, d), (0, -d), (0, d), (d, -d), (d, 0), (d, d)]

/-- `prop_offset_orig` after the first switch of `CalcOffsets`. -/
def propOffsets (d : ℤ) (n : ℕ) : List (ℤ × ℤ) :=
  if n = 4 then [(-d, 0), (0, -d), (0, d), (d, 0)]
  else if n = 8 then ring8 d
  else if n = 16 then ring8 d ++ (ring8 d).map fun p => (2 * p.1, 2 * p.2)
  else []

/-- The 9-neighbor evaluation table (full 3×3 including center) at
evaluation dilation `e = dilation - 1`. -/
def evalOffsets9 (e : ℤ) : List (ℤ × ℤ) :=
  [(-e, -e), (-e, 0), (-e, e), (0, -e), (0, 0), (0, e), (e, -e), (e, 0), (e, e)]

/-- The 17-neighbor evaluation branch: the 3×3 block plus the doubled first 8
propagation offsets (skipping a zero offset). It indexes
`prop_offset_orig[0..7]`, so it is well-defined only when the propagation
table has at least 8 entries; otherwise the read is out of bounds (`none`). -/
def evalOffsets17 (e : ℤ) (prop : List (ℤ × ℤ)) : Option (List (ℤ × ℤ)) :=
  if 8 ≤ prop.length then
    some (evalOffsets9 e ++
      ((prop.take 8).filter fun p => ¬(p.1 = 0 ∧ p.2 = 0)).map fun p => (2 * p.1, 2 * p.2))
  else none

/-- `CalcOffsets(dilation)` for configured neighbor counts `nProp`, `nEval`:
the propagation table and the (possibly undefined) evaluation table. The
evaluation switch runs after `dilation--`. -/
def calcOffsets (dilation : ℤ) (nProp nEval : ℕ) : List (ℤ × ℤ) × Option (List (ℤ × ℤ)) :=
  let prop := propOffsets dilation nProp
  (prop,
    if nEval = 9 then some (evalOffsets9 (dilation - 1))
    else if nEval = 17 then evalOffsets17 (dilation - 1) prop
    else some [])

/-- C9: with `evaluation_neighbors = 17`, `CalcOffsets` is well-defined
exactly when `propagation_neighbors` is 8 or 16: for the configured counts
0 and 4 the propagation table has fewer than 8 entries and the loop reads
`prop_offset_orig` out of bounds. -/
theorem eval17_requires_eight_prop_offsets (d : ℤ) (n : ℕ)
    (hn : n = 0 ∨ n = 4 ∨ n = 8 ∨ n = 16) :
    ((calcOffsets d n 17).2.isSome ↔ n = 8 ∨ n = 16) := by
  rcases hn with h | h | h | h <;> subst h <;>
    simp [calcOffsets, evalOffsets17, propOffsets, ring8]

/-- Witness for C9 at `propagation_neighbors = 8`, dilation 2. -/
theorem eval17_requires_eight_prop_offsets_witness :
    ((8 : ℕ) = 0 ∨ (8 : ℕ) = 4 ∨ (8 : ℕ) = 8 ∨ (8 : ℕ) = 16) ∧
    ((calcOffsets 2 8 17).2.isSome ↔ (8 : ℕ) = 8 ∨ (8 : ℕ) = 16) :=
  ⟨Or.inr (Or.inr (Or.inl rfl)),
    eval17_requires_eight_prop_offsets 2 8 (Or.inr (Or.inr (Or.inl rfl)))⟩

/-! ### EvaluationImpl view weights and the multi-stage pipeline
(lines 336-342, 375-377, 526-541, 694-703)

Only the view-weight control flow matters for C10; the learned tensors are
abstracted (a per-view similarity is a `List ℚ`, `pixelwise_net` a function
on it). The constructor registers `pixelwise_net` only at stage 3; `forward`
with undefined `view_weights` dereferences it, which is modelled as `none`
(the null-module dereference). `stageLoop` is the iteration loop of
`PatchMatchModuleImpl::forward` threading `view_weights`; `pipelineRun` is
the stage 3 → 2 → 1 loop of `PatchMatchNetModuleImpl::forward` starting with
undefined view weights. -/

/-- The sub-modules of `EvaluationImpl` relevant to the view-weight branch:
`pixelwise_net` is registered only when the construction stage is 3. -/
structure EvalModule where
  stage : ℕ
  pixelwiseNet : Option (List ℚ → ℚ)

/-- `EvaluationImpl::EvaluationImpl(num_groups, stage)` (lines 336-342). -/
def mkEvaluation (stage : ℕ) (net : List ℚ → ℚ) : EvalModule :=
  ⟨stage, if stage = 3 then some net else none⟩

/-- Lines 368-381 and 388: the view weights `EvaluationImpl::forward`
returns. With defined input weights they are passed through; otherwise each
per-view weight comes from `pixelwise_net`, whose absence (a null module at
stages 1 and 2) is the error case `none`. -/
def evaluationViewWeights (m : EvalModule) (srcSims : List (List ℚ))
    (viewWeights : Option (List ℚ)) : Option (List ℚ) :=
  viewWeights.elim (m.pixelwiseNet.map fun net => srcSims.map net) some

/-- The iteration loop of `PatchMatchModuleImpl::forward` (lines 526-541),
restricted to the view-weight state: each iteration feeds the current
weights to the evaluation and carries the returned weights. The outer `none`
is the null-module dereference. -/
def stageLoop (m : EvalModule) (iters : ℕ) (srcSims : List (List ℚ))
    (vw : Option (List ℚ)) : Option (Option (List ℚ)) :=
  match iters with
  | 0 => some vw
  | Nat.succ nIt =>
    (evaluationViewWeights m srcSims vw).elim none fun vw2 =>
      stageLoop m nIt srcSims (some vw2)

/-- The coarse-to-fine loop of `PatchMatchNetModuleImpl::forward`
(lines 694-703): stages 3, 2, 1, threading the view weights, which start
undefined. -/
def pipelineRun (net : List ℚ → ℚ) (iters : ℕ → ℕ)
    (srcSims : List (List ℚ)) : Option (Option (List ℚ)) :=
  (stageLoop (mkEvaluation 3 net) (iters 3) srcSims none).elim none fun vw3 =>
    (stageLoop (mkEvaluation 2 net) (iters 2) srcSims vw3).elim none fun vw2 =>
      stageLoop (mkEvaluation 1 net) (iters 1) srcSims vw2

lemma stageLoop_defined_weights (m : EvalModule) (iters : ℕ) (srcSims : List (List ℚ))
    (vw : List ℚ) : stageLoop m iters srcSims (some vw) = some (some vw) := by
  induction iters with
  | zero => rfl
  | succ nIt ih => exact ih

/-- C10: calling the evaluation with undefined view weights succeeds exactly
at stage 3 (where `pixelwise_net` is registered; at stages 1 and 2 the null
module is dereferenced), and the pipeline maintains this precondition: it
runs stage 3 first with at least one iteration, so every finer stage
receives defined view weights and the whole run is well-defined. -/
theorem view_weights_require_stage3 (s : ℕ) (net : List ℚ → ℚ)
    (srcSims : List (List ℚ)) (iters : ℕ → ℕ) (h3 : 1 ≤ iters 3) :
    ((evaluationViewWeights (mkEvaluation s net) srcSims none).isSome ↔ s = 3) ∧
    (pipelineRun net iters srcSims).isSome := by
  constructor
  · by_cases hs : s = 3 <;> simp [evaluationViewWeights, mkEvaluation, hs]
  · obtain ⟨nIt, hn⟩ : ∃ nIt, iters 3 = nIt + 1 :=
      ⟨iters 3 - 1, by omega⟩
    show ((stageLoop (mkEvaluation 3 net) (iters 3) srcSims none).elim none fun vw3 =>
      (stageLoop (mkEvaluation 2 net) (iters 2) srcSims vw3).elim none fun vw2 =>
        stageLoop (mkEvaluation 1 net) (iters 1) srcSims vw2).isSome
    rw [hn]
    have h1 : stageLoop (mkEvaluation 3 net) (nIt + 1) srcSims none =
        some (some (srcSims.map net)) := by
      show (evaluationViewWeights (mkEvaluation 3 net) srcSims none).elim none
        (fun vw2 => stageLoop (mkEvaluation 3 net) nIt srcSims (some vw2)) =
          some (some (srcSims.map net))
      rw [show evaluationViewWeights (mkEvaluation 3 net) srcSims none =
        some (srcSims.map net) from rfl]
      exact stageLoop_defined_weights _ _ _ _
    rw [h1]
    show ((stageLoop (mkEvaluation 2 net) (iters 2) srcSims (some (srcSims.map net))).elim
      none fun vw2 => stageLoop (mkEvaluation 1 net) (iters 1) srcSims vw2).isSome
    rw [stageLoop_defined_weights]
    show (stageLoop (mkEvaluation 1 net) (iters 1) srcSims (some (srcSims.map net))).isSome
    rw [stageLoop_defined_weights]
    rfl

/-- Witness for C10 at stage 3, one iteration per stage, two source views. -/
theorem view_weights_require_stage3_witness :
    1 ≤ (fun _ : ℕ => 1) 3 ∧
    (((evaluationViewWeights (mkEvaluation 3 (fun _ => 1)) [[0], [1]] none).isSome ↔
        (3 : ℕ) = 3) ∧
      (pipelineRun (fun _ => 1) (fun _ => 1) [[0], [1]]).isSome) :=
  ⟨le_refl 1, view_weights_require_stage3 3 (fun _ => 1) [[0], [1]] (fun _ => 1) (le_refl 1)⟩

/-! ### EvaluationImpl::forward score regression (lines 383-384)

`score = torch::exp(torch::log_softmax(cost, 1))` along the depth-hypothesis
axis. Per pixel the depth axis is a real list `cost`; the model follows the
code literally: `log_softmax` subtracts the log of the sum of exponentials,
then `exp` is applied. These use `Real.exp`/`Real.log`, so the definitions
are noncomputable, as the operation is inherently transcendental. -/

/-- `torch::log_softmax(cost, 1)` at one pixel. -/
noncomputable def logSoftmax (cost : List ℝ) : List ℝ :=
  cost.map fun v => v - Real.log (cost.map Real.exp).sum

/-- The probability (score) volume at one pixel:
`torch::exp(torch::log_softmax(cost, 1))`. -/
noncomputable def softmaxScore (cost : List ℝ) : List ℝ :=
  (logSoftmax cost).map Real.exp

/-- C2: for every (nonempty) aggregated cost list, the score volume is
non-negative at every entry and sums to exactly 1 in exact arithmetic — the
per-pixel probability volume is a distribution over the depth hypotheses. -/
theorem score_volume_is_distribution (cost : List ℝ) (h : cost ≠ []) :
    (∀ s ∈ softmaxScore cost, 0 ≤ s) ∧ (softmaxScore cost).sum = 1 := by
  have hS : 0 < (cost.map Real.exp).sum := by
    refine List.sum_pos _ (fun x hx => ?_) (by simpa using h)
    obtain ⟨v, -, rfl⟩ := List.mem_map.mp hx
    exact Real.exp_pos v
  constructor
  · intro s hs
    obtain ⟨v, -, rfl⟩ := List.mem_map.mp hs
    exact le_of_lt (Real.exp_pos v)
  · have hrw : softmaxScore cost =
        cost.map fun v => Real.exp v * ((cost.map Real.exp).sum)⁻¹ := by
      show (cost.map fun v => v - Real.log (cost.map Real.exp).sum).map Real.exp =
        cost.map fun v => Real.exp v * ((cost.map Real.exp).sum)⁻¹
      rw [List.map_map]
      refine List.map_congr_left fun v _ => ?_
      rw [Function.comp_apply, Real.exp_sub, Real.exp_log hS, div_eq_mul_inv]
    rw [hrw, List.sum_map_mul_right, mul_inv_cancel₀ (ne_of_gt hS)]

/-- Witness for C2 at the one-hypothesis cost list `[0]`. -/
theorem score_volume_is_distribution_witness :
    ([(0 : ℝ)] ≠ []) ∧
    ((∀ s ∈ softmaxScore [(0 : ℝ)], 0 ≤ s) ∧ (softmaxScore [(0 : ℝ)]).sum = 1) :=
  ⟨List.cons_ne_nil 0 [], score_volume_is_distribution [0] (List.cons_ne_nil 0 [])⟩

/-! ### PatchMatchNetModuleImpl::CalcConfidence (lines 718-738)

Per pixel the score volume is a function `j ↦ score j` over `dep` depth
hypotheses. `4 * avg_pool3d(pad(score, {0,0,0,0,1,2}), {4,1,1}, stride 1)` is
the 4-wide moving sum over padded depth indices `i-1 … i+2` (out-of-range
reads are the zero padding). The expected depth index
`sum(score * arange(dep))` is converted with `.to(torch::kLong)` (truncation
toward zero) and clamped to `[0, dep-1]`; truncation and floor agree on every
input after this clamp (they differ only on negatives, which clamp to 0
either way), so the model uses the floor. The gathered value is bilinearly
upsampled 2× (`kInterpBilinear`, `align_corners=false`, border-clamped source
reads). -/

/-- Read of the padded score list: the value at depth `j`, or the zero
padding outside `[0, dep)`. -/
def sget (dep : ℕ) (s : ℕ → ℚ) (j : ℤ) : ℚ :=
  if 0 ≤ j ∧ j < (dep : ℤ) then s j.toNat else 0

/-- The 4-wide causal-padded moving sum at depth index `i`:
`4 * avg_pool3d(pad(·, 1 front, 2 back), kernel 4, stride 1)`. -/
def scoreSum4 (dep : ℕ) (s : ℕ → ℚ) (i : ℤ) : ℚ :=
  sget dep s (i - 1) + sget dep s i + sget dep s (i + 1) + sget dep s (i + 2)

/-- The expected depth-hypothesis index `sum(score * arange(dep))`. -/
def depthExpectation (dep : ℕ) (s : ℕ → ℚ) : ℚ :=
  ∑ j in Finset.range dep, (j : ℚ) * s j

/-- The gather index: expectation truncated to an integer and clamped to
`[0, dep-1]`. -/
def gatherIndex (dep : ℕ) (s : ℕ → ℚ) : ℤ :=
  min (max ⌊depthExpectation dep s⌋ 0) ((dep : ℤ) - 1)

/-- The confidence at one pixel before upsampling:
`score_sum.gather(1, depth_index)`. -/
def confidenceLowRes (dep : ℕ) (score : ℕ → ℕ → ℕ → ℚ) (x y : ℕ) : ℚ :=
  scoreSum4 dep (score x y) (gatherIndex dep (score x y))

/-- 2× bilinear upsampling (`kInterpBilinear`, `align_corners=false`): output
pixel `(xo, yo)` reads the source at `((xo + 1/2)/2 - 1/2, (yo + 1/2)/2 - 1/2)`
with border-clamped bilinear interpolation. -/
def upsample2x (w h : ℕ) (f : ℕ → ℕ → ℚ) (xo yo : ℕ) : ℚ :=
  bilin2D (borderPix w h f) (((xo : ℚ) + 1/2) / 2 - 1/2) (((yo : ℚ) + 1/2) / 2 - 1/2)

/-- `PatchMatchNetModuleImpl::CalcConfidence` at full-resolution pixel
`(xo, yo)`, for a low-resolution `w × h` score volume with `dep` hypotheses. -/
def calcConfidence (dep w h : ℕ) (score : ℕ → ℕ → ℕ → ℚ) (xo yo : ℕ) : ℚ :=
  upsample2x w h (confidenceLowRes dep score) xo yo

lemma sget_nonneg (dep : ℕ) (s : ℕ → ℚ) (hnn : ∀ j, 0 ≤ s j) (j : ℤ) :
    0 ≤ sget dep s j := by
  unfold sget
  split
  · exact hnn _
  · exact le_refl 0

lemma sum_sget_Ico (dep : ℕ) (s : ℕ → ℚ) :
    ∑ j in Finset.Ico (0 : ℤ) (dep : ℤ), sget dep s j = ∑ j in Finset.range dep, s j := by
  refine Finset.sum_nbij' (fun a => a.toNat) (fun b => (b : ℤ)) ?_ ?_ ?_ ?_ ?_
  · intro a ha
    rw [Finset.mem_Ico] at ha
    rw [Finset.mem_range]
    show a.toNat < dep
    omega
  · intro b hb
    rw [Finset.mem_range] at hb
    rw [Finset.mem_Ico]
    show (0 : ℤ) ≤ (b : ℤ) ∧ (b : ℤ) < (dep : ℤ)
    omega
  · intro a ha
    rw [Finset.mem_Ico] at ha
    show ((a.toNat : ℤ)) = a
    omega
  · intro b _
    show ((b : ℤ)).toNat = b
    omega
  · intro a ha
    rw [Finset.mem_Ico] at ha
    show sget dep s a = s a.toNat
    unfold sget
    rw [if_pos ⟨ha.1, ha.2⟩]

lemma scoreSum4_bounds (dep : ℕ) (s : ℕ → ℚ) (hnn : ∀ j, 0 ≤ s j)
    (hsum : ∑ j in Finset.range dep, s j = 1) (i : ℤ) :
    0 ≤ scoreSum4 dep s i ∧ scoreSum4 dep s i ≤ 1 := by
  have hnn4 := sget_nonneg dep s hnn
  constructor
  · have := hnn4 (i - 1)
    have := hnn4 i
    have := hnn4 (i + 1)
    have := hnn4 (i + 2)
    unfold scoreSum4
    linarith
  · have hT : ∑ j in (insert (i - 1) (insert i (insert (i + 1) ({i + 2} : Finset ℤ)))),
        sget dep s j = scoreSum4 dep s i := by
      rw [Finset.sum_insert
          (by simp only [Finset.mem_insert, Finset.mem_singleton]; omega),
        Finset.sum_insert
          (by simp only [Finset.mem_insert, Finset.mem_singleton]; omega),
        Finset.sum_insert (by simp only [Finset.mem_singleton]; omega),
        Finset.sum_singleton]
      unfold scoreSum4
      ring
    have hsub : ∑ j in (insert (i - 1) (insert i (insert (i + 1) ({i + 2} : Finset ℤ)))),
        sget dep s j ≤
        ∑ j in (insert (i - 1) (insert i (insert (i + 1) ({i + 2} : Finset ℤ)))) ∪
          Finset.Ico (0 : ℤ) (dep : ℤ), sget dep s j :=
      Finset.sum_le_sum_of_subset_of_nonneg Finset.subset_union_left
        (fun j _ _ => hnn4 j)
    have hvanish : ∑ j in (insert (i - 1) (insert i (insert (i + 1) ({i + 2} : Finset ℤ)))) ∪
        Finset.Ico (0 : ℤ) (dep : ℤ), sget dep s j =
        ∑ j in Finset.Ico (0 : ℤ) (dep : ℤ), sget dep s j := by
      refine (Finset.sum_subset Finset.subset_union_right fun j _ hj => ?_).symm
      rw [Finset.mem_Ico] at hj
      unfold sget
      rw [if_neg]
      intro hc
      exact hj ⟨hc.1, hc.2⟩
    rw [← hT]
    calc ∑ j in (insert (i - 1) (insert i (insert (i + 1) ({i + 2} : Finset ℤ)))),
        sget dep s j ≤ _ := hsub
      _ = ∑ j in Finset.Ico (0 : ℤ) (dep : ℤ), sget dep s j := hvanish
      _ = ∑ j in Finset.range dep, s j := sum_sget_Ico dep s
      _ = 1 := hsum

lemma bilin2D_bounds (pix : ℤ → ℤ → ℚ) (x y : ℚ)
    (hb : ∀ ix iy, 0 ≤ pix ix iy ∧ pix ix iy ≤ 1) :
    0 ≤ bilin2D pix x y ∧ bilin2D pix x y ≤ 1 := by
  have hx0 : 0 ≤ Int.fract x := Int.fract_nonneg x
  have hx1 : Int.fract x ≤ 1 := le_of_lt (Int.fract_lt_one x)
  have hy0 : 0 ≤ Int.fract y := Int.fract_nonneg y
  have hy1 : Int.fract y ≤ 1 := le_of_lt (Int.fract_lt_one y)
  have c00 : (0 : ℚ) ≤ (1 - Int.fract x) * (1 - Int.fract y) :=
    mul_nonneg (by linarith) (by linarith)
  have c10 : (0 : ℚ) ≤ Int.fract x * (1 - Int.fract y) :=
    mul_nonneg hx0 (by linarith)
  have c01 : (0 : ℚ) ≤ (1 - Int.fract x) * Int.fract y :=
    mul_nonneg (by linarith) hy0
  have c11 : (0 : ℚ) ≤ Int.fract x * Int.fract y := mul_nonneg hx0 hy0
  obtain ⟨p00n, p00u⟩ := hb ⌊x⌋ ⌊y⌋
  obtain ⟨p10n, p10u⟩ := hb (⌊x⌋ + 1) ⌊y⌋
  obtain ⟨p01n, p01u⟩ := hb ⌊x⌋ (⌊y⌋ + 1)
  obtain ⟨p11n, p11u⟩ := hb (⌊x⌋ + 1) (⌊y⌋ + 1)
  unfold bilin2D
  constructor
  · have t1 := mul_nonneg c00 p00n
    have t2 := mul_nonneg c10 p10n
    have t3 := mul_nonneg c01 p01n
    have t4 := mul_nonneg c11 p11n
    linarith
  · have t1 := mul_le_of_le_one_right c00 p00u
    have t2 := mul_le_of_le_one_right c10 p10u
    have t3 := mul_le_of_le_one_right c01 p01u
    have t4 := mul_le_of_le_one_right c11 p11u
    have hcoeff : (1 - Int.fract x) * (1 - Int.fract y) + Int.fract x * (1 - Int.fract y) +
        (1 - Int.fract x) * Int.fract y + Int.fract x * Int.fract y = 1 := by
      ring
    linarith

/-- C8: for a score volume that is a valid per-pixel distribution over the
depth hypotheses (non-negative, summing to 1 per pixel), the 4-wide moving
sum lies in `[0, 1]` at every index (in particular at the clamped gather
index), and every pixel of the bilinearly upsampled confidence map lies in
`[0, 1]`. -/
theorem confidence_in_unit_interval (dep w h : ℕ) (score : ℕ → ℕ → ℕ → ℚ)
    (xo yo : ℕ) (hnn : ∀ x y j, 0 ≤ score x y j)
    (hsum : ∀ x y, ∑ j in Finset.range dep, score x y j = 1) :
    (∀ x y (i : ℤ), 0 ≤ scoreSum4 dep (score x y) i ∧ scoreSum4 dep (score x y) i ≤ 1) ∧
    0 ≤ calcConfidence dep w h score xo yo ∧ calcConfidence dep w h score xo yo ≤ 1 := by
  have hs4 : ∀ x y (i : ℤ),
      0 ≤ scoreSum4 dep (score x y) i ∧ scoreSum4 dep (score x y) i ≤ 1 :=
    fun x y i => scoreSum4_bounds dep (score x y) (hnn x y) (hsum x y) i
  refine ⟨hs4, ?_⟩
  unfold calcConfidence upsample2x
  exact bilin2D_bounds _ _ _ (fun ix iy => hs4 _ _ _)

/-- The one-hypothesis score volume that is constantly 1 (a valid
distribution when `dep = 1`). -/
def onesScore : ℕ → ℕ → ℕ → ℚ := fun _ _ _ => 1

/-- Witness for C8: the one-hypothesis score volume that is constantly 1 on
a 1×1 image. -/
theorem confidence_in_unit_interval_witness :
    (∀ x y j : ℕ, 0 ≤ onesScore x y j) ∧
    (∀ x y : ℕ, ∑ j in Finset.range 1, onesScore x y j = 1) ∧
    ((∀ x y (i : ℤ), 0 ≤ scoreSum4 1 (onesScore x y) i ∧
        scoreSum4 1 (onesScore x y) i ≤ 1) ∧
      0 ≤ calcConfidence 1 1 1 onesScore 0 0 ∧
      calcConfidence 1 1 1 onesScore 0 0 ≤ 1) :=
  ⟨fun _ _ _ => zero_le_one, fun _ _ => by simp [onesScore],
    confidence_in_unit_interval 1 1 1 onesScore 0 0
      (fun _ _ _ => zero_le_one) (fun _ _ => by simp [onesScore])⟩

end TorchModules
